import Mathlib

/-!
Verification development for the raptor query-and-threshold engine.

The C++ sources are shallowly embedded:
* hashes are natural numbers below 2^64;
* the Interleaved Bloom Filter is modelled at the exact-membership level
  described in the specification (a bin answers whether a hash was inserted
  into it), since the seqan::hibf library itself is an external collaborator;
* strings built by the emit loops are modelled as lists of characters;
* per-record counting vectors are modelled as functions from the record
  index and the bin index to the accumulated count.
-/

namespace Raptor

/-- Modelled from the spec: `partition_config::hash_partition` (the header
`partition_config.hpp` is not part of the sources at hand).  The spec states
`partition(h) = h >> (64 - ceil(log2 P))` for `P` partitions. -/
def hash_partition (parts : Nat) (hash : Nat) : Nat :=
  hash >>> (64 - Nat.clog 2 parts)

/-- Exact-membership model of the Interleaved Bloom Filter: each technical bin
is the list of hashes inserted into it. -/
abbrev IBF := Nat → List Nat

/-- A fresh IBF: every bin is empty. -/
def emptyIBF : IBF := fun _ => []

/-- Insert a batch of hashes into one technical bin (the `emplacer` of
`index_factory::construct` feeding `hash_into`). -/
def insertAll (ibf : IBF) (bin : Nat) (hashes : List Nat) : IBF :=
  fun b => if b = bin then ibf b ++ hashes else ibf b

/-- Modelled from the spec: `counting_agent.bulk_count` of the external
seqan::hibf library, at the exact-membership level: the count of a bin is the
number of query hashes that are members of the bin. -/
def bulk_count (ibf : IBF) (hashes : List Nat) (bin : Nat) : Nat :=
  (hashes.filter (fun h => decide (h ∈ ibf bin))).length

/-- The emit loop of `search_singular_ibf::worker` and of `output_task`:
walk the counting vector in bin order and keep the bins whose count reaches
the threshold (`count >= threshold`). -/
def hitBins (binCount : Nat) (counts : Nat → Nat) (threshold : Nat) : List Nat :=
  (List.range binCount).filter (fun b => decide (threshold ≤ counts b))

/-- The append loop of the emit code: for every hit bin, append its decimal
representation followed by a comma. -/
def appendHits (bins : List Nat) : List Char :=
  bins.foldl (fun acc b => acc ++ (Nat.repr b).data ++ [',']) []

/-- The last-character fixup of the emit code: replace a trailing comma by a
newline, otherwise append a newline. -/
def fixupLine (r : List Char) : List Char :=
  if r.getLast? = some ',' then r.dropLast ++ ['\n'] else r ++ ['\n']

/-- One output line as built by the worker: record id, a tab, the appended
hit bins, then the last-character fixup. -/
def lineChars (id : List Char) (bins : List Nat) : List Char :=
  fixupLine (id ++ '\t' :: appendHits bins)

/-- Comma-separated join, written from the specification's words
`"id\tb1,b2,...\n"`: the pieces separated by single commas, no trailing
comma. -/
def commaJoin : List (List Char) → List Char
  | [] => []
  | [x] => x
  | x :: y :: rest => x ++ ',' :: commaJoin (y :: rest)

/-- The output line format as the specification words it: id, tab,
comma-separated bin list, newline. -/
def specLine (id : List Char) (bins : List Nat) : List Char :=
  id ++ '\t' :: (commaJoin (bins.map (fun b => (Nat.repr b).data)) ++ ['\n'])

/-- A query record: its id and its extracted minimiser stream. -/
abbrev QueryRecord := List Char × List Nat

/-- The flat (single-IBF) search: one line per record, counting all
minimisers against the IBF and thresholding at `τ(|m|)`
(`search_singular_ibf::worker`, the `is_ibf` branch). -/
def searchFlat (binCount : Nat) (ibf : IBF) (τ : Nat → Nat)
    (records : List QueryRecord) : List (List Char) :=
  records.map (fun r => lineChars r.1 (hitBins binCount (bulk_count ibf r.2) (τ r.2.length)))

/-- The zipped view of `call_parallel_on_bins`: the bin paths paired with
`iota(0, number_of_bins)`. -/
def zippedBins (binPaths : List (List String)) : List (List String × Nat) :=
  binPaths.zip (List.range binPaths.length)

/-- `index_factory::construct` for a flat build (`config == nullptr`): every
bin-path entry is hashed into the technical bin equal to its position. -/
def construct (hashesOf : List String → List Nat) (binPaths : List (List String)) : IBF :=
  (zippedBins binPaths).foldl (fun ibf e => insertAll ibf e.2 (hashesOf e.1)) emptyIBF

/-- `index_factory::construct` for one partition (`config != nullptr`): as
`construct`, but `hash_into_if` keeps only the hashes whose
`hash_partition` equals the partition being built. -/
def constructPart (hashesOf : List String → List Nat) (binPaths : List (List String))
    (parts part : Nat) : IBF :=
  (zippedBins binPaths).foldl
    (fun ibf e =>
      insertAll ibf e.2 ((hashesOf e.1).filter (fun h => decide (hash_partition parts h = part))))
    emptyIBF

/-- A default query record, standing for `records[i]` lookups. -/
def defaultRecord : QueryRecord := ([], [])

/-- `count_task` of `search_partitioned_ibf`: for every record, filter its
minimisers by the current partition and add the partition IBF's bulk count
into the record's accumulator. -/
def addCounts (parts part : Nat) (ibf : IBF) (records : List QueryRecord)
    (counts : Nat → Nat → Nat) : Nat → Nat → Nat :=
  fun i b =>
    counts i b
      + bulk_count ibf
          (((records.getD i defaultRecord).2).filter (fun h => decide (hash_partition parts h = part)))
          b

/-- `output_task` of `search_partitioned_ibf`: add the last partition's
counts, then threshold at `τ` of the record's total (unfiltered) minimiser
count and emit the line. -/
def outputTask (binCount parts part : Nat) (ibf : IBF) (τ : Nat → Nat)
    (records : List QueryRecord) (counts : Nat → Nat → Nat) : List (List Char) :=
  (List.range records.length).map (fun i =>
    let r := records.getD i defaultRecord
    let c := fun b =>
      counts i b
        + bulk_count ibf (r.2.filter (fun h => decide (hash_partition parts h = part))) b
    lineChars r.1 (hitBins binCount c (τ r.2.length)))

/-- `search_partitioned_ibf` over one chunk: zero-initialised accumulators,
`count_task` for partition 0, the loop over partitions `1 .. parts - 2`,
then `output_task` for partition `parts - 1`. -/
def search_partitioned_ibf (binCount parts : Nat) (ibfs : Nat → IBF) (τ : Nat → Nat)
    (records : List QueryRecord) : List (List Char) :=
  let counts0 : Nat → Nat → Nat := fun _ _ => 0
  let counts1 := addCounts parts 0 (ibfs 0) records counts0
  let countsMid := (List.range' 1 (parts - 2)).foldl
    (fun cs p => addCounts parts p (ibfs p) records cs) counts1
  outputTask binCount parts (parts - 1) (ibfs (parts - 1)) τ records countsMid

/-! Lemmas about the emit-line construction. -/

lemma foldl_append_chunks (g : Nat → List Char) :
    ∀ (bins : List Nat) (acc : List Char),
      bins.foldl (fun a b => a ++ g b ++ [',']) acc
        = acc ++ (bins.map (fun b => g b ++ [','])).flatten := by
  intro bins
  induction bins with
  | nil => intro acc; simp
  | cons b bs ih =>
    intro acc
    simp only [List.foldl_cons, List.map_cons, List.flatten_cons]
    rw [ih]
    simp [List.append_assoc]

lemma flatten_map_concat_comma :
    ∀ (xs : List (List Char)), xs ≠ [] →
      (xs.map (fun x => x ++ [','])).flatten = commaJoin xs ++ [','] := by
  intro xs
  induction xs with
  | nil => intro h; exact absurd rfl h
  | cons x rest ih =>
    intro _
    cases rest with
    | nil => simp [commaJoin]
    | cons y ys =>
      simp only [List.map_cons, List.flatten_cons, commaJoin]
      rw [List.map_cons, List.flatten_cons] at ih
      rw [ih (by simp)]
      simp

lemma appendHits_eq (bins : List Nat) :
    appendHits bins = (bins.map (fun b => (Nat.repr b).data ++ [','])).flatten := by
  unfold appendHits
  rw [foldl_append_chunks (fun b => (Nat.repr b).data) bins []]
  simp

/-- C6: for every query record the emitted line is exactly the record id,
a tab, the comma-separated list of hit bins with no trailing comma, and a
newline; with no hits, the line is the id, a tab, and a newline. -/
theorem line_format (id : List Char) (bins : List Nat) :
    lineChars id bins = specLine id bins
      ∧ lineChars id [] = id ++ ['\t', '\n'] := by
  constructor
  · unfold lineChars specLine fixupLine
    cases hb : bins with
    | nil =>
      simp [appendHits, commaJoin]
    | cons b bs =>
      rw [appendHits_eq]
      have hcomp : (b :: bs).map (fun x => (Nat.repr x).data ++ [','])
          = ((b :: bs).map (fun x => (Nat.repr x).data)).map (fun x => x ++ [',']) := by
        simp [List.map_map]
      rw [hcomp, flatten_map_concat_comma _ (by simp)]
      have hshape : id ++ '\t' :: (commaJoin ((b :: bs).map (fun x => (Nat.repr x).data)) ++ [','])
          = (id ++ '\t' :: commaJoin ((b :: bs).map (fun x => (Nat.repr x).data))) ++ [','] := by
        simp
      rw [hshape, List.getLast?_concat, List.dropLast_concat]
      simp
  · unfold lineChars fixupLine
    simp [appendHits]

/-- C10: the list of bins reported in any output line is strictly increasing
and has no duplicates, because the emit loop walks the counting vector in
bin-index order and appends each index at most once. -/
theorem hit_bins_sorted_nodup (binCount : Nat) (counts : Nat → Nat) (τ : Nat) :
    (hitBins binCount counts τ).Pairwise (· < ·) ∧ (hitBins binCount counts τ).Nodup :=
  ⟨(List.pairwise_lt_range binCount).filter _, (List.nodup_range binCount).filter _⟩

/-! Lemmas about the partitioned search flow. -/

lemma countsFold_apply (parts : Nat) (ibfs : Nat → IBF) (records : List QueryRecord) :
    ∀ (ps : List Nat) (c0 : Nat → Nat → Nat) (i b : Nat),
      (ps.foldl (fun cs p => addCounts parts p (ibfs p) records cs) c0) i b
        = c0 i b
            + (ps.map (fun p =>
                bulk_count (ibfs p)
                  (((records.getD i defaultRecord).2).filter
                    (fun h => decide (hash_partition parts h = p)))
                  b)).sum := by
  intro ps
  induction ps with
  | nil => intro c0 i b; simp
  | cons p pt ih =>
    intro c0 i b
    rw [List.foldl_cons, ih, List.map_cons, List.sum_cons]
    unfold addCounts
    omega

lemma partition_list_split (parts : Nat) (h2 : 2 ≤ parts) :
    (0 :: List.range' 1 (parts - 2)) ++ [parts - 1] = List.range parts := by
  rw [List.range_eq_range']
  have h1 : parts = (parts - 1) + 1 := by omega
  have h3 : List.range' 1 (parts - 2) ++ List.range' (1 + 1 * (parts - 2)) 1
      = List.range' 1 (1 + (parts - 2)) := List.range'_append 1 (parts - 2) 1 1
  have h4 : (1 + 1 * (parts - 2)) = parts - 1 := by omega
  have h5 : (1 + (parts - 2)) = parts - 1 := by omega
  rw [h4, h5] at h3
  rw [List.range'_one] at h3
  conv_rhs => rw [h1, List.range'_succ]
  simp only [List.cons_append, Nat.zero_add]
  rw [h3]

lemma search_partitioned_closed_form (binCount parts : Nat) (ibfs : Nat → IBF)
    (τ : Nat → Nat) (records : List QueryRecord) (h2 : 2 ≤ parts) :
    search_partitioned_ibf binCount parts ibfs τ records
      = (List.range records.length).map (fun i =>
          lineChars (records.getD i defaultRecord).1
            (hitBins binCount
              (fun b => ((List.range parts).map (fun p =>
                bulk_count (ibfs p)
                  (((records.getD i defaultRecord).2).filter
                    (fun h => decide (hash_partition parts h = p)))
                  b)).sum)
              (τ (records.getD i defaultRecord).2.length))) := by
  unfold search_partitioned_ibf outputTask
  apply List.map_congr_left
  intro i _
  have hcount : (fun b =>
      ((List.range' 1 (parts - 2)).foldl
          (fun cs p => addCounts parts p (ibfs p) records cs)
          (addCounts parts 0 (ibfs 0) records fun _ _ => 0)) i b
        + bulk_count (ibfs (parts - 1))
            (((records.getD i defaultRecord).2).filter
              (fun h => decide (hash_partition parts h = (parts - 1))))
            b)
      = (fun b => ((List.range parts).map (fun p =>
          bulk_count (ibfs p)
            (((records.getD i defaultRecord).2).filter
              (fun h => decide (hash_partition parts h = p)))
            b)).sum) := by
    funext b
    rw [countsFold_apply]
    unfold addCounts
    rw [← partition_list_split parts h2]
    rw [List.map_append, List.sum_append, List.map_cons, List.sum_cons]
    simp only [List.map_cons, List.map_nil, List.sum_cons, List.sum_nil]
    omega
  simp only [hcount]

/-- C2: in the partitioned flow, each record keeps one accumulator; every
partition contributes the bulk count of that record's minimisers filtered by
`hash_partition(h) == p`; only after all `parts` partitions have been added
is the accumulated count thresholded at `τ` of the record's total
(unfiltered) minimiser count and the line emitted. -/
theorem partitioned_flow (binCount parts : Nat) (ibfs : Nat → IBF)
    (τ : Nat → Nat) (records : List QueryRecord) (h2 : 2 ≤ parts) :
    search_partitioned_ibf binCount parts ibfs τ records
      = (List.range records.length).map (fun i =>
          lineChars (records.getD i defaultRecord).1
            (hitBins binCount
              (fun b => ((List.range parts).map (fun p =>
                bulk_count (ibfs p)
                  (((records.getD i defaultRecord).2).filter
                    (fun h => decide (hash_partition parts h = p)))
                  b)).sum)
              (τ (records.getD i defaultRecord).2.length))) :=
  search_partitioned_closed_form binCount parts ibfs τ records h2

/-! Lemmas for the partition-equivalence claim. -/

lemma foldl_insert_filter (hashesOf : List String → List Nat) (pred : Nat → Bool) :
    ∀ (l : List (List String × Nat)) (ibf1 ibf2 : IBF),
      (∀ b, ibf2 b = (ibf1 b).filter pred) →
      ∀ b,
        (l.foldl (fun i e => insertAll i e.2 ((hashesOf e.1).filter pred)) ibf2) b
          = ((l.foldl (fun i e => insertAll i e.2 (hashesOf e.1)) ibf1) b).filter pred := by
  intro l
  induction l with
  | nil => intro ibf1 ibf2 h b; exact h b
  | cons e t ih =>
    intro ibf1 ibf2 h b
    rw [List.foldl_cons, List.foldl_cons]
    apply ih
    intro b'
    unfold insertAll
    by_cases hb : b' = e.2 <;> simp [hb, h, List.filter_append]

lemma constructPart_eq_filter (hashesOf : List String → List Nat)
    (binPaths : List (List String)) (parts part : Nat) (b : Nat) :
    constructPart hashesOf binPaths parts part b
      = (construct hashesOf binPaths b).filter (fun h => decide (hash_partition parts h = part)) := by
  unfold constructPart construct
  exact foldl_insert_filter hashesOf _ (zippedBins binPaths) emptyIBF emptyIBF (fun _ => rfl) b

lemma hash_partition_lt (e h : Nat) (he64 : e ≤ 64) (hh : h < 2 ^ 64) :
    hash_partition (2 ^ e) h < 2 ^ e := by
  unfold hash_partition
  rw [Nat.clog_pow 2 e (by norm_num), Nat.shiftRight_eq_div_pow]
  rw [Nat.div_lt_iff_lt_mul (Nat.two_pow_pos (64 - e))]
  calc h < 2 ^ 64 := hh
    _ = 2 ^ e * 2 ^ (64 - e) := by rw [← pow_add]; congr 1; omega

lemma list_sum_range_eq (f : Nat → Nat) (n : Nat) :
    ((List.range n).map f).sum = ∑ p ∈ Finset.range n, f p := by
  induction n with
  | zero => simp
  | succ m ih => rw [List.range_succ]; simp [ih, Finset.sum_range_succ]

lemma countP_parts_sum (parts : Nat) (q : Nat → Bool) (pf : Nat → Nat) (ms : List Nat)
    (h : ∀ m ∈ ms, pf m < parts) :
    ((List.range parts).map
        (fun p => ms.countP (fun m => decide (pf m = p) && q m))).sum
      = ms.countP q := by
  induction ms with
  | nil => simp
  | cons m t ih =>
    have ht : ∀ x ∈ t, pf x < parts := fun x hx => h x (List.mem_cons_of_mem m hx)
    have hm : pf m < parts := h m (List.mem_cons_self m t)
    rw [list_sum_range_eq] at ih ⊢
    simp only [List.countP_cons]
    rw [Finset.sum_add_distrib, ih ht]
    have hsum : (∑ p ∈ Finset.range parts,
        if (decide (pf m = p) && q m) = true then 1 else 0)
          = if q m = true then 1 else 0 := by
      by_cases hq : q m = true
      · simp only [hq, Bool.and_true, decide_eq_true_eq]
        rw [Finset.sum_ite_eq (Finset.range parts) (pf m) (fun _ => 1)]
        simp [Finset.mem_range, hm]
      · simp [hq]
    omega

lemma bulk_count_part_eq_countP (S : IBF) (parts part : Nat) (ms : List Nat) (b : Nat) :
    bulk_count (fun b' => (S b').filter (fun h => decide (hash_partition parts h = part)))
        (ms.filter (fun h => decide (hash_partition parts h = part))) b
      = ms.countP (fun m => decide (hash_partition parts m = part) && decide (m ∈ S b)) := by
  unfold bulk_count
  rw [← List.countP_eq_length_filter, List.countP_filter]
  apply List.countP_congr
  intro m _
  by_cases hp : hash_partition parts m = part
  · simp [hp, List.mem_filter]
  · simp [hp]

/-- C1: for every query record the partitioned search over `2^e` partition
IBFs built with the same `hash_partition` reports the same bins as the flat
single-IBF search over the same data: the per-bin counts summed over all
partitions equal the flat per-bin counts, and the emitted lines coincide. -/
theorem partition_equivalence (hashesOf : List String → List Nat)
    (binPaths : List (List String)) (binCount e : Nat) (τ : Nat → Nat)
    (records : List QueryRecord)
    (he1 : 1 ≤ e) (he64 : e ≤ 64)
    (hh : ∀ r ∈ records, ∀ m ∈ r.2, m < 2 ^ 64) :
    (∀ r ∈ records, ∀ b,
        ((List.range (2 ^ e)).map (fun p =>
          bulk_count (constructPart hashesOf binPaths (2 ^ e) p)
            (r.2.filter (fun h => decide (hash_partition (2 ^ e) h = p))) b)).sum
          = bulk_count (construct hashesOf binPaths) r.2 b)
    ∧ search_partitioned_ibf binCount (2 ^ e)
        (fun p => constructPart hashesOf binPaths (2 ^ e) p) τ records
        = searchFlat binCount (construct hashesOf binPaths) τ records := by
  have hcounts : ∀ r ∈ records, ∀ b,
      ((List.range (2 ^ e)).map (fun p =>
        bulk_count (constructPart hashesOf binPaths (2 ^ e) p)
          (r.2.filter (fun h => decide (hash_partition (2 ^ e) h = p))) b)).sum
        = bulk_count (construct hashesOf binPaths) r.2 b := by
    intro r hr b
    have hterm : ∀ p,
        bulk_count (constructPart hashesOf binPaths (2 ^ e) p)
          (r.2.filter (fun h => decide (hash_partition (2 ^ e) h = p))) b
          = r.2.countP
              (fun m => decide (hash_partition (2 ^ e) m = p)
                          && decide (m ∈ construct hashesOf binPaths b)) := by
      intro p
      have hibf : constructPart hashesOf binPaths (2 ^ e) p
          = fun b' => (construct hashesOf binPaths b').filter
              (fun h => decide (hash_partition (2 ^ e) h = p)) :=
        funext (fun b' => constructPart_eq_filter hashesOf binPaths (2 ^ e) p b')
      rw [hibf]
      exact bulk_count_part_eq_countP (construct hashesOf binPaths) (2 ^ e) p r.2 b
    calc ((List.range (2 ^ e)).map (fun p =>
            bulk_count (constructPart hashesOf binPaths (2 ^ e) p)
              (r.2.filter (fun h => decide (hash_partition (2 ^ e) h = p))) b)).sum
        = ((List.range (2 ^ e)).map (fun p =>
            r.2.countP (fun m => decide (hash_partition (2 ^ e) m = p)
                          && decide (m ∈ construct hashesOf binPaths b)))).sum := by
          exact congrArg List.sum (List.map_congr_left (fun p _ => hterm p))
      _ = r.2.countP (fun m => decide (m ∈ construct hashesOf binPaths b)) := by
          apply countP_parts_sum
          intro m hm
          exact hash_partition_lt e m he64 (hh r hr m hm)
      _ = bulk_count (construct hashesOf binPaths) r.2 b := by
          rw [bulk_count, ← List.countP_eq_length_filter]
  refine ⟨hcounts, ?_⟩
  have h2 : 2 ≤ 2 ^ e := by
    calc 2 = 2 ^ 1 := by norm_num
      _ ≤ 2 ^ e := Nat.pow_le_pow_right (by norm_num) he1
  rw [search_partitioned_closed_form binCount (2 ^ e) _ τ records h2]
  unfold searchFlat
  apply List.ext_getElem
  · simp
  · intro n h₁ h₂
    rw [List.getElem_map, List.getElem_map, List.getElem_range]
    have hn : n < records.length := by simpa using h₂
    have hget : records.getD n defaultRecord = records[n] := List.getD_eq_getElem records defaultRecord hn
    rw [hget]
    have hmem : records[n] ∈ records := List.getElem_mem hn
    have hfun : (fun b => ((List.range (2 ^ e)).map (fun p =>
        bulk_count (constructPart hashesOf binPaths (2 ^ e) p)
          ((records[n].2).filter (fun h => decide (hash_partition (2 ^ e) h = p))) b)).sum)
        = bulk_count (construct hashesOf binPaths) records[n].2 :=
      funext (fun b => hcounts records[n] hmem b)
    rw [hfun]

/-! Lemmas for the flat build's bin assignment. -/

lemma foldl_insert_apply (hashesOf : List String → List Nat) :
    ∀ (l : List (List String × Nat)) (ibf : IBF) (b : Nat),
      (l.foldl (fun i e => insertAll i e.2 (hashesOf e.1)) ibf) b
        = ibf b
            ++ ((l.filter (fun e => decide (e.2 = b))).map (fun e => hashesOf e.1)).flatten := by
  intro l
  induction l with
  | nil => intro ibf b; simp
  | cons e t ih =>
    intro ibf b
    rw [List.foldl_cons, ih]
    unfold insertAll
    by_cases hb : e.2 = b
    · subst hb
      simp [List.filter_cons, List.append_assoc]
    · have hb2 : ¬(b = e.2) := fun hc => hb hc.symm
      simp [List.filter_cons, hb, hb2]

lemma zip_range'_filter (b : Nat) :
    ∀ (paths : List (List String)) (s : Nat),
      (paths.zip (List.range' s paths.length)).filter (fun e => decide (e.2 = b))
        = if s ≤ b ∧ b < s + paths.length
            then [(paths.getD (b - s) [], b)]
            else [] := by
  intro paths
  induction paths with
  | nil =>
    intro s
    simp only [List.length_nil]
    rw [if_neg (by omega)]
    simp
  | cons p rest ih =>
    intro s
    simp only [List.length_cons, List.range'_succ, List.zip_cons_cons, List.filter_cons]
    by_cases hb : s = b
    · subst hb
      rw [if_pos (by simp)]
      rw [if_pos (by constructor <;> omega)]
      have htail : (rest.zip (List.range' (s + 1) rest.length)).filter
          (fun e => decide (e.2 = s)) = [] := by
        rw [ih (s + 1), if_neg (by omega)]
      rw [htail]
      simp
    · rw [if_neg (by simpa using hb)]
      rw [ih (s + 1)]
      by_cases hcond : s + 1 ≤ b ∧ b < s + 1 + rest.length
      · rw [if_pos hcond, if_pos (by omega)]
        have hsub : b - s = (b - (s + 1)) + 1 := by omega
        rw [hsub, List.getD_cons_succ]
      · rw [if_neg hcond, if_neg (by omega)]

lemma construct_apply (hashesOf : List String → List Nat)
    (binPaths : List (List String)) (b : Nat) :
    construct hashesOf binPaths b
      = if b < binPaths.length then hashesOf (binPaths.getD b []) else [] := by
  unfold construct zippedBins
  rw [foldl_insert_apply, List.range_eq_range', zip_range'_filter]
  by_cases hb : b < binPaths.length
  · rw [if_pos (by omega), if_pos hb]
    simp [emptyIBF]
  · rw [if_neg (by omega), if_neg hb]
    simp [emptyIBF]

/-- C9: in a flat build, the technical bin of a user bin is its zero-based
position in the bin-path list: index `i` is processed exactly once, the
hashes of the `i`-th entry land in technical bin `i`, and no other bin
receives them. -/
theorem flat_bin_assignment (hashesOf : List String → List Nat)
    (binPaths : List (List String)) :
    ((zippedBins binPaths).map Prod.snd = List.range binPaths.length)
    ∧ (∀ b, b < binPaths.length →
        construct hashesOf binPaths b = hashesOf (binPaths.getD b []))
    ∧ (∀ b, binPaths.length ≤ b → construct hashesOf binPaths b = []) := by
  refine ⟨?_, ?_, ?_⟩
  · exact List.map_snd_zip binPaths (List.range binPaths.length) (by simp)
  · intro b hb
    rw [construct_apply, if_pos hb]
  · intro b hb
    rw [construct_apply, if_neg (by omega)]

/-! Model of `compute_minimiser` (prepare): occurrence table, written
minimiser file, header file, and the `.in_progress` sentinel protocol. -/

/-- One update of the occurrence hash table:
`minimiser_table[hash] = min(254, minimiser_table[hash] + 1)`. -/
def insertOccurrence (t : Nat → Nat) (h : Nat) : Nat → Nat :=
  fun x => if x = h then min 254 (t h + 1) else t x

/-- The occurrence table after streaming all hashes of one input file. -/
def minimiser_table (hs : List Nat) : Nat → Nat :=
  hs.foldl insertOccurrence (fun _ => 0)

/-- The hashes written to the `.minimiser` file: the distinct hashes of the
table whose saturated occurrence count reaches the cutoff, each written
once. -/
def writtenMinimisers (hs : List Nat) (cutoff : Nat) : List Nat :=
  hs.dedup.filter (fun h => decide (cutoff ≤ minimiser_table hs h))

/-- The single `.header` line: shape string, window size, cutoff and count
separated by tabs, terminated by a newline. -/
def headerChars (shapeStr : List Char) (w cutoff count : Nat) : List Char :=
  shapeStr ++ '\t' :: (Nat.repr w).data ++ '\t' :: (Nat.repr cutoff).data
    ++ '\t' :: (Nat.repr count).data ++ ['\n']

/-- The header written by `compute_minimiser`: its count field is the number
of hashes that went to the `.minimiser` file. -/
def prepareHeader (shapeStr : List Char) (w cutoff : Nat) (hs : List Nat) : List Char :=
  headerChars shapeStr w cutoff (writtenMinimisers hs cutoff).length

lemma insertOccurrence_le (t : Nat → Nat) (g : Nat) (ht : ∀ y, t y ≤ 254) :
    ∀ y, insertOccurrence t g y ≤ 254 := by
  intro y
  unfold insertOccurrence
  by_cases hy : y = g
  · rw [if_pos hy]
    exact min_le_left 254 _
  · rw [if_neg hy]
    exact ht y

lemma minimiser_table_foldl (hs : List Nat) :
    ∀ (t : Nat → Nat) (x : Nat), (∀ y, t y ≤ 254) →
      hs.foldl insertOccurrence t x = min 254 (t x + hs.count x) := by
  induction hs with
  | nil =>
    intro t x ht
    simp only [List.foldl_nil, List.count_nil, Nat.add_zero]
    rw [min_eq_right (ht x)]
  | cons g rest ih =>
    intro t x ht
    rw [List.foldl_cons]
    rw [ih (insertOccurrence t g) x (insertOccurrence_le t g ht)]
    unfold insertOccurrence
    rw [List.count_cons]
    have htx := ht x
    by_cases hx : x = g
    · subst hx
      simp only [if_pos rfl, beq_self_eq_true, if_true]
      simp only [Nat.min_def]
      split_ifs <;> omega
    · have hgx : (g == x) = false := by
        simpa using fun hc => hx hc.symm
      simp only [if_neg hx, hgx, Bool.false_eq_true, if_false, Nat.add_zero]

/-- C4: the occurrence count per minimiser saturates at 254; the
`.minimiser` file holds exactly the hashes whose saturated count reaches the
cutoff, each exactly once; the `.header` line carries the shape, window,
cutoff and the number of written hashes. -/
theorem prepare_outputs (hs : List Nat) (cutoff : Nat) (shapeStr : List Char) (w : Nat) :
    (∀ h, minimiser_table hs h = min 254 (hs.count h))
    ∧ (writtenMinimisers hs cutoff).Nodup
    ∧ (∀ h, h ∈ writtenMinimisers hs cutoff ↔ (h ∈ hs ∧ cutoff ≤ min 254 (hs.count h)))
    ∧ prepareHeader shapeStr w cutoff hs
        = headerChars shapeStr w cutoff (writtenMinimisers hs cutoff).length := by
  have htab : ∀ h, minimiser_table hs h = min 254 (hs.count h) := by
    intro h
    unfold minimiser_table
    rw [minimiser_table_foldl hs (fun _ => 0) h (fun _ => Nat.zero_le 254)]
    rw [Nat.zero_add]
  refine ⟨htab, (List.nodup_dedup hs).filter _, ?_, rfl⟩
  intro h
  unfold writtenMinimisers
  rw [List.mem_filter, List.mem_dedup]
  rw [htab h]
  simp

/-! Model of the `.in_progress` sentinel protocol of `compute_minimiser`. -/

/-- Existence of the three per-file artefacts on disk. -/
structure PrepFS where
  minimiser_exists : Bool
  header_exists : Bool
  progress_exists : Bool
deriving DecidableEq

/-- The filesystem effects of one `compute_minimiser` pass over a file, in
program order. -/
inductive PrepEvent where
  | createSentinel
  | writeMinimiserFile
  | writeHeaderFile
  | removeSentinel
deriving DecidableEq

/-- Effect of one event on the on-disk artefacts. -/
def applyEvent (fs : PrepFS) : PrepEvent → PrepFS
  | PrepEvent.createSentinel => { fs with progress_exists := true }
  | PrepEvent.writeMinimiserFile => { fs with minimiser_exists := true }
  | PrepEvent.writeHeaderFile => { fs with header_exists := true }
  | PrepEvent.removeSentinel => { fs with progress_exists := false }

/-- The skip condition of the code: both outputs exist and no sentinel. -/
def already_done (fs : PrepFS) : Bool :=
  fs.minimiser_exists && fs.header_exists && !fs.progress_exists

/-- The events performed for one file: none when `already_done`, otherwise
the full sentinel-guarded recomputation. -/
def prepareTrace (fs : PrepFS) : List PrepEvent :=
  if already_done fs then []
  else [PrepEvent.createSentinel, PrepEvent.writeMinimiserFile,
        PrepEvent.writeHeaderFile, PrepEvent.removeSentinel]

/-- The filesystem after one `compute_minimiser` pass over the file. -/
def runPrepare (fs : PrepFS) : PrepFS :=
  (prepareTrace fs).foldl applyEvent fs

/-- C5: prepare skips a file iff both outputs exist and no sentinel exists;
otherwise the sentinel is created first, both outputs written, and the
sentinel removed last, so every interrupted pass leaves a state that is
recomputed on restart while a completed pass is skipped. -/
theorem sentinel_protocol :
    ∀ fs : PrepFS,
      ((prepareTrace fs = []) ↔
        (fs.minimiser_exists = true ∧ fs.header_exists = true ∧ fs.progress_exists = false))
      ∧ (already_done fs = false →
          prepareTrace fs
              = [PrepEvent.createSentinel, PrepEvent.writeMinimiserFile,
                 PrepEvent.writeHeaderFile, PrepEvent.removeSentinel]
            ∧ (∀ n, n < (prepareTrace fs).length →
                already_done (((prepareTrace fs).take n).foldl applyEvent fs) = false)
            ∧ already_done (runPrepare fs) = true)
      ∧ (already_done fs = true → runPrepare fs = fs) := by
  intro fs
  obtain ⟨m, h, p⟩ := fs
  cases m <;> cases h <;> cases p <;>
    refine ⟨by decide, fun hd => ⟨by revert hd; decide, by decide, by revert hd; decide⟩,
      by decide⟩

/-! Model of the header-writing state: the query engines guard the TSV
header with `static bool header_written = write_header();`, a function-local
static whose initializer runs the first time control reaches it in the
process. -/

/-- An output item of a query run: the TSV header or one record line. -/
inductive OutItem where
  | header
  | record (line : List Char)
deriving DecidableEq

/-- One engine invocation over its chunks.  The boolean threaded through is
the process-level static `header_written`: when still unset, reaching the
first chunk writes the header and sets it; afterwards every chunk only
appends its record lines. -/
def engineChunks (binCount : Nat) (ibf : IBF) (τ : Nat → Nat)
    (staticFlag : Bool) (chunks : List (List QueryRecord)) : List OutItem × Bool :=
  chunks.foldl
    (fun acc chunk =>
      let withHeader := if acc.2 then acc.1 else acc.1 ++ [OutItem.header]
      (withHeader ++ (searchFlat binCount ibf τ chunk).map OutItem.record, true))
    ([], staticFlag)

lemma engineChunks_foldl_true (binCount : Nat) (ibf : IBF) (τ : Nat → Nat) :
    ∀ (chunks : List (List QueryRecord)) (acc : List OutItem × Bool), acc.2 = true →
      (chunks.foldl
          (fun acc chunk =>
            let withHeader := if acc.2 then acc.1 else acc.1 ++ [OutItem.header]
            (withHeader ++ (searchFlat binCount ibf τ chunk).map OutItem.record, true))
          acc).1.count OutItem.header = acc.1.count OutItem.header
      ∧ (chunks.foldl
          (fun acc chunk =>
            let withHeader := if acc.2 then acc.1 else acc.1 ++ [OutItem.header]
            (withHeader ++ (searchFlat binCount ibf τ chunk).map OutItem.record, true))
          acc).2 = true := by
  intro chunks
  induction chunks with
  | nil => intro acc h; exact ⟨rfl, h⟩
  | cons c cs ih =>
    intro acc h
    rw [List.foldl_cons]
    have hstep := ih (((if acc.2 then acc.1 else acc.1 ++ [OutItem.header])
        ++ (searchFlat binCount ibf τ c).map OutItem.record, true)) rfl
    refine ⟨?_, hstep.2⟩
    rw [hstep.1]
    simp only [h, if_true, List.count_append]
    have hrec : ((searchFlat binCount ibf τ c).map OutItem.record).count OutItem.header = 0 := by
      rw [List.count_eq_zero]
      intro hmem
      obtain ⟨l, _, hl⟩ := List.mem_map.mp hmem
      exact OutItem.noConfusion hl
    omega

lemma searchFlat_map_no_header (binCount : Nat) (ibf : IBF) (τ : Nat → Nat)
    (chunk : List QueryRecord) :
    ((searchFlat binCount ibf τ chunk).map OutItem.record).count OutItem.header = 0 := by
  rw [List.count_eq_zero]
  intro hmem
  obtain ⟨l, _, hl⟩ := List.mem_map.mp hmem
  exact OutItem.noConfusion hl

/-- C7 counterexample: run the engine twice in the same process (the static
flag threaded from the first invocation into the second); the second
invocation emits no header, contradicting the claim that each invocation
writes its own header. -/
theorem header_static_counterexample :
    (engineChunks 1 (fun _ => []) (fun _ => 1)
        (engineChunks 1 (fun _ => []) (fun _ => 1) false [[(['r'], [])]]).2
        [[(['r'], [])]]).1.count OutItem.header = 0 := by
  decide

/-- C7 amended: the header is written exactly once per process: the first
chunk of the first invocation emits it before any record line, and any later
invocation in the same process emits no header at all. -/
theorem header_once_per_process (binCount : Nat) (ibf : IBF) (τ : Nat → Nat)
    (c : List QueryRecord) (cs : List (List QueryRecord))
    (chunks₂ : List (List QueryRecord)) :
    (engineChunks binCount ibf τ false (c :: cs)).1.head? = some OutItem.header
    ∧ (engineChunks binCount ibf τ false (c :: cs)).1.count OutItem.header = 1
    ∧ (engineChunks binCount ibf τ
          (engineChunks binCount ibf τ false (c :: cs)).2 chunks₂).1.count OutItem.header
        = 0 := by
  have hfirst : engineChunks binCount ibf τ false (c :: cs)
      = cs.foldl
          (fun acc chunk =>
            let withHeader := if acc.2 then acc.1 else acc.1 ++ [OutItem.header]
            (withHeader ++ (searchFlat binCount ibf τ chunk).map OutItem.record, true))
          (OutItem.header :: (searchFlat binCount ibf τ c).map OutItem.record, true) := by
    unfold engineChunks
    rw [List.foldl_cons]
    rfl
  have hrest := engineChunks_foldl_true binCount ibf τ cs
      (OutItem.header :: (searchFlat binCount ibf τ c).map OutItem.record, true) rfl
  constructor
  · rw [hfirst]
    have hpre : ∀ (chunks : List (List QueryRecord)) (acc : List OutItem × Bool)
        (x : OutItem) (t : List OutItem), acc.1 = x :: t →
        (chunks.foldl
            (fun acc chunk =>
              let withHeader := if acc.2 then acc.1 else acc.1 ++ [OutItem.header]
              (withHeader ++ (searchFlat binCount ibf τ chunk).map OutItem.record, true))
            acc).1.head? = some x := by
      intro chunks
      induction chunks with
      | nil =>
        intro acc x t h
        simp only [List.foldl_nil]
        rw [h]
        rfl
      | cons d ds ih =>
        intro acc x t h
        rw [List.foldl_cons]
        apply ih _ x (((if acc.2 then t else t ++ [OutItem.header])
            ++ (searchFlat binCount ibf τ d).map OutItem.record))
        by_cases hacc : acc.2 <;> simp [hacc, h]
    exact hpre cs _ OutItem.header _ rfl
  constructor
  · rw [hfirst, hrest.1]
    rw [List.count_cons_self, searchFlat_map_no_header]
  · have hflag : (engineChunks binCount ibf τ false (c :: cs)).2 = true := by
      rw [hfirst]; exact hrest.2
    rw [hflag]
    exact (engineChunks_foldl_true binCount ibf τ chunks₂ ([], true) rfl).1

/-- C3: determinism.  The build is a pure function of its inputs, so two
builds from identical inputs produce identical IBF contents; and any two
query runs over the same index, threshold and query records emit the same
multiset of output lines regardless of how the fixed-seed shuffle (or the
scheduler) permutes the records. -/
theorem build_query_determinism (hashesOf₁ hashesOf₂ : List String → List Nat)
    (binPaths₁ binPaths₂ : List (List String)) (binCount : Nat) (ibf : IBF)
    (τ : Nat → Nat) (records : List QueryRecord)
    (s₁ s₂ : List QueryRecord → List QueryRecord)
    (hf : hashesOf₁ = hashesOf₂) (hp : binPaths₁ = binPaths₂)
    (hs₁ : ∀ l, (s₁ l).Perm l) (hs₂ : ∀ l, (s₂ l).Perm l) :
    construct hashesOf₁ binPaths₁ = construct hashesOf₂ binPaths₂
    ∧ (searchFlat binCount ibf τ (s₁ records)).Perm (searchFlat binCount ibf τ records)
    ∧ (searchFlat binCount ibf τ (s₁ records)).Perm (searchFlat binCount ibf τ (s₂ records)) := by
  subst hf
  subst hp
  have h₁ : (searchFlat binCount ibf τ (s₁ records)).Perm (searchFlat binCount ibf τ records) :=
    (hs₁ records).map _
  have h₂ : (searchFlat binCount ibf τ (s₂ records)).Perm (searchFlat binCount ibf τ records) :=
    (hs₂ records).map _
  exact ⟨rfl, h₁, h₁.trans h₂.symm⟩

/-- C8: a record with an empty minimiser stream has zero in every bin; under
the precondition `τ(0) ≥ 1` no bin reaches the threshold and the emitted
line is exactly the id, a tab and a newline. -/
theorem empty_minimiser_record (binCount : Nat) (ibf : IBF) (τ : Nat → Nat)
    (id : List Char) (hτ : 1 ≤ τ 0) :
    (∀ b, bulk_count ibf [] b = 0)
    ∧ hitBins binCount (bulk_count ibf []) (τ 0) = []
    ∧ searchFlat binCount ibf τ [(id, [])] = [id ++ ['\t', '\n']] := by
  have hzero : ∀ b, bulk_count ibf [] b = 0 := fun b => rfl
  have hhits : hitBins binCount (bulk_count ibf []) (τ 0) = [] := by
    unfold hitBins
    rw [List.filter_eq_nil_iff]
    intro b _
    rw [hzero b]
    simp only [decide_eq_true_eq]
    omega
  refine ⟨hzero, hhits, ?_⟩
  unfold searchFlat
  rw [List.map_cons, List.map_nil]
  have hlen : (([], []) : QueryRecord).2.length = 0 := rfl
  show [lineChars id (hitBins binCount (bulk_count ibf []) (τ 0))] = [id ++ ['\t', '\n']]
  rw [hhits]
  unfold lineChars fixupLine
  simp [appendHits]

/-! Witnesses: concrete instantiations of the theorems with hypotheses. -/

/-- Witness for the partition-equivalence theorem at two bins, two
partitions and one record with hashes on both sides of the partition
boundary. -/
theorem partition_equivalence_witness :
    (1 : Nat) ≤ 64
    ∧ search_partitioned_ibf 2 (2 ^ 1)
        (fun p => constructPart (fun _ => [3, 11]) [["a"], ["b"]] (2 ^ 1) p)
        (fun n => n) [(['q'], [3, 2 ^ 63 + 5, 11])]
      = searchFlat 2 (construct (fun _ => [3, 11]) [["a"], ["b"]]) (fun n => n)
          [(['q'], [3, 2 ^ 63 + 5, 11])] :=
  ⟨by decide,
   (partition_equivalence (fun _ => [3, 11]) [["a"], ["b"]] 2 1 (fun n => n)
      [(['q'], [3, 2 ^ 63 + 5, 11])] (by decide) (by decide) (by decide)).2⟩

/-- Witness for the partitioned flow theorem at two partitions and one
record. -/
theorem partitioned_flow_witness :
    2 ≤ 2
    ∧ search_partitioned_ibf 1 2 (fun _ _ => [5]) (fun n => n) [(['q'], [5])]
        = [['q', '\t', '0', '\n']] := by
  have hcl : Nat.clog 2 2 = 1 := Nat.clog_pow 2 1 (by norm_num)
  refine ⟨by decide, (partitioned_flow 1 2 (fun _ _ => [5]) (fun n => n) [(['q'], [5])]
    (by decide)).trans ?_⟩
  simp only [hash_partition, hcl]
  decide

/-- Witness for the determinism theorem: one run shuffled by reversal, one
unshuffled. -/
theorem build_query_determinism_witness :
    construct (fun _ => [3]) [["a"]] = construct (fun _ => [3]) [["a"]]
    ∧ (searchFlat 1 (fun _ => []) (fun _ => 1)
          (List.reverse [(['a'], []), (['b'], [])])).Perm
        (searchFlat 1 (fun _ => []) (fun _ => 1) [(['a'], []), (['b'], [])]) := by
  have h := build_query_determinism (fun _ => [3]) (fun _ => [3]) [["a"]] [["a"]]
    1 (fun _ => []) (fun _ => 1) [(['a'], []), (['b'], [])] List.reverse (fun l => l)
    rfl rfl (fun l => List.reverse_perm l) (fun l => List.Perm.refl l)
  exact ⟨h.1, h.2.1⟩

/-- Witness for the sentinel protocol theorem at the fresh filesystem
state. -/
theorem sentinel_protocol_witness :
    prepareTrace ⟨false, false, false⟩
        = [PrepEvent.createSentinel, PrepEvent.writeMinimiserFile,
           PrepEvent.writeHeaderFile, PrepEvent.removeSentinel]
    ∧ already_done (runPrepare ⟨false, false, false⟩) = true :=
  ⟨((sentinel_protocol ⟨false, false, false⟩).2.1 (by decide)).1,
   ((sentinel_protocol ⟨false, false, false⟩).2.1 (by decide)).2.2⟩

/-- Witness for the empty-minimiser-record theorem with a constant
threshold of one. -/
theorem empty_minimiser_record_witness :
    1 ≤ 1
    ∧ searchFlat 2 (fun _ => [5]) (fun _ => 1) [(['q'], [])] = [['q', '\t', '\n']] :=
  ⟨by decide,
   ((empty_minimiser_record 2 (fun _ => [5]) (fun _ => 1) ['q'] (by decide)).2.2).trans
     (by decide)⟩

/-- Witness for the flat bin-assignment theorem at two user bins with
distinct contents. -/
theorem flat_bin_assignment_witness :
    (zippedBins [["a"], ["b"]]).map Prod.snd = List.range 2
    ∧ construct (fun fs => if fs = ["a"] then [3] else [7]) [["a"], ["b"]] 0 = [3]
    ∧ construct (fun fs => if fs = ["a"] then [3] else [7]) [["a"], ["b"]] 2 = [] := by
  have h := flat_bin_assignment (fun fs => if fs = ["a"] then [3] else [7]) [["a"], ["b"]]
  refine ⟨h.1, ?_, h.2.2 2 (by decide)⟩
  exact (h.2.1 0 (by decide)).trans (by decide)

end Raptor
